import Mathlib

/-!
Verification of the `jsiterable` library (src/src/index.ts) against its
natural-language specification.

The library is a lazy-sequence wrapper class `Iterable<T>` over JavaScript
iterables.  We shallow-embed it as follows.

* A JavaScript iterable object is modelled by the elements each successive
  request of its iterator (`[Symbol.iterator]()` call number `n`) yields:
  a function `Nat → List α`.  A *repeatable* iterable yields the same list
  on every request; a single-use generator object would yield its list on
  request 0 and `[]` afterwards.

* The wrapper's stored `_source` (field `enumerate` below) additionally
  returns `Except JSError`, because when the wrapper was built from a
  function source the function is re-invoked on each traversal request and
  its result may fail to be iterable (a `TypeError` at traversal time).

* Each combinator's generator body (`function* () { ... }`) is embedded as
  a recursive function over the list produced by one fresh traversal of the
  parent source, threading the 0-based `index` counter exactly as the
  `index++` in the source does.

* Possibly-null user callbacks are modelled by `Option`; invoking a `none`
  callback is the `TypeError` JavaScript raises when calling `null`.
-/

/-- Errors the library can surface.  The three `ref*` constructors model the
`ReferenceError`s thrown explicitly by the source; the two `type*`
constructors model the `TypeError`s the JavaScript runtime raises when a
non-iterable is iterated or a null callback is invoked. -/
inductive JSError where
  | refInvalidSource
  | refInvalidFilter
  | refInvalidKeySelector
  | typeNotIterable
  | typeNotFunction
deriving DecidableEq, Repr

/-- Which of the library's errors are `ReferenceError`s (all three explicit
`throw new ReferenceError(...)` sites in index.ts). -/
def JSError.isReferenceError : JSError → Bool
  | .refInvalidSource => true
  | .refInvalidFilter => true
  | .refInvalidKeySelector => true
  | .typeNotIterable => false
  | .typeNotFunction => false

/-- A JavaScript value model rich enough to talk about falsiness of
sequence elements (`first()` must not confuse a falsy element with
absence). -/
inductive JSValue where
  | vNull
  | vUndefined
  | vBool (b : Bool)
  | vNum (n : Int)
  | vStr (s : String)
deriving DecidableEq, Repr

/-- JavaScript falsiness for `JSValue` (`null`, `undefined`, `false`, `0`,
and the empty string are falsy). -/
def JSValue.falsy : JSValue → Bool
  | .vNull => true
  | .vUndefined => true
  | .vBool b => !b
  | .vNum n => n == 0
  | .vStr s => s == ""

/-- The wrapper class `Iterable<T>` of index.ts, reduced to its only stored
state, the normalized `_source`.  `enumerate n` is the element list the
`n`-th traversal request (`[Symbol.iterator]()` call followed by a full
drain) produces, or the `TypeError` that drain raises when a function
source returned a non-iterable. -/
structure Iterable (α : Type) where
  enumerate : Nat → Except JSError (List α)

/-- A constructor argument, covering the shapes the claims mention: `null`,
`undefined`, a bare number, a function source, and an iterable source.
A function source is modelled by what its `n`-th invocation returns:
`some l` when the returned value is an iterable whose fresh iterator yields
`l`, `none` when it returns a non-iterable such as `null`.  An iterable
source is modelled by the list its `n`-th iterator request yields. -/
inductive JSSource (α : Type) where
  | jsNull
  | jsUndefined
  | jsNumber (n : Int)
  | jsFunc (f : Nat → Option (List α))
  | jsIterable (e : Nat → List α)

namespace Iterable

variable {α β κ : Type}

/-- The `Iterable` constructor (index.ts lines 19–33).  A function source is
accepted without being invoked and wrapped so that every traversal request
invokes it anew (`[Symbol.iterator]: () => source()[Symbol.iterator]()`);
an iterable source is stored as-is; anything else throws the
`Invalid source` `ReferenceError`. -/
def construct : JSSource α → Except JSError (Iterable α)
  | .jsFunc f =>
      .ok ⟨fun n =>
        match f n with
        | some l => .ok l
        | none => .error .typeNotIterable⟩
  | .jsIterable e => .ok ⟨fun n => .ok (e n)⟩
  | .jsNull => .error .refInvalidSource
  | .jsUndefined => .error .refInvalidSource
  | .jsNumber _ => .error .refInvalidSource

/-- Wrapping a plain array: a repeatable iterable yielding the same list on
every traversal request. -/
def ofList (l : List α) : Iterable α := ⟨fun _ => .ok l⟩

/-- A source is repeatable when every traversal request yields the same
result (spec §8 "a source whose own enumeration is itself repeatable"). -/
def Repeatable (it : Iterable α) : Prop :=
  ∀ m n, it.enumerate m = it.enumerate n

/-- `count()` (index.ts): drains one fresh traversal, counting elements.
`n` is which traversal request of the source this call consumes. -/
def count (it : Iterable α) (n : Nat) : Except JSError Nat :=
  (it.enumerate n).map List.length

/-- `items()` (index.ts): drains one fresh traversal into an array. -/
def items (it : Iterable α) (n : Nat) : Except JSError (List α) :=
  it.enumerate n

/-- The body of `first()` without a predicate: one `next()` call on a fresh
iterator; `done ? null : value`.  `none` is the null sentinel. -/
def firstList : List α → Option α
  | [] => none
  | x :: _ => some x

/-- The body of `first(filter)` with a predicate: scan with the 0-based
`index++` counter, returning the first match, `null` (here `none`) when
none matches. -/
def firstWithGo (p : α → Nat → Bool) : List α → Nat → Option α
  | [], _ => none
  | x :: xs, i => if p x i then some x else firstWithGo p xs (i + 1)

/-- `first(filter?)` (index.ts lines 102–116) run against one fresh
traversal of the source. -/
def first (it : Iterable α) (p : Option (α → Nat → Bool)) (n : Nat) :
    Except JSError (Option α) :=
  match p with
  | some f => (it.enumerate n).map (fun l => firstWithGo f l 0)
  | none => (it.enumerate n).map firstList

/-- Generator body of `filter` (index.ts lines 80–94): keep the items the
predicate accepts, `index++` counted over the input to this stage. -/
def filterGo (f : α → Nat → Bool) : List α → Nat → List α
  | [], _ => []
  | x :: xs, i => if f x i then x :: filterGo f xs (i + 1) else filterGo f xs (i + 1)

/-- One traversal of a `filter` result over a given source traversal. -/
def filterList (f : α → Nat → Bool) (l : List α) : List α :=
  filterGo f l 0

/-- The sequence `filter` returns once its eager callback check has passed:
a new `Iterable` from a generator function, so each traversal request `n`
re-runs the generator over a fresh traversal `n` of the parent source. -/
def filterGen (f : α → Nat → Bool) (it : Iterable α) : Iterable α :=
  ⟨fun n => (it.enumerate n).map (filterList f)⟩

/-- The `filter` method call (index.ts lines 80–94): a falsy (null or
undefined) callback throws the `Invalid filter` `ReferenceError` eagerly,
before any traversal; otherwise a new lazy sequence is returned. -/
def filter (cb : Option (α → Nat → Bool)) (it : Iterable α) :
    Except JSError (Iterable α) :=
  match cb with
  | none => .error .refInvalidFilter
  | some f => .ok (filterGen f it)

/-- Generator body of `distinct` (index.ts lines 55–72): a fresh `Set` of
seen keys per generator run, `keySelector(item, index++)`, yield on unseen
keys only.  `seen` is the set's membership list. -/
def distinctGo [DecidableEq κ] (k : α → Nat → κ) :
    List α → Nat → List κ → List α
  | [], _, _ => []
  | x :: xs, i, seen =>
      if k x i ∈ seen then distinctGo k xs (i + 1) seen
      else x :: distinctGo k xs (i + 1) (k x i :: seen)

/-- One traversal of a `distinct` result: the seen-keys set starts empty
because the generator allocates `new Set()` on every run. -/
def distinctList [DecidableEq κ] (k : α → Nat → κ) (l : List α) : List α :=
  distinctGo k l 0 []

/-- The sequence `distinct` returns once its eager callback check has
passed. -/
def distinctGen [DecidableEq κ] (k : α → Nat → κ) (it : Iterable α) :
    Iterable α :=
  ⟨fun n => (it.enumerate n).map (distinctList k)⟩

/-- The `distinct` method call (index.ts lines 55–72): a falsy keySelector
throws the `Invalid keySelector` `ReferenceError` eagerly. -/
def distinct [DecidableEq κ] (cb : Option (α → Nat → κ)) (it : Iterable α) :
    Except JSError (Iterable α) :=
  match cb with
  | none => .error .refInvalidKeySelector
  | some k => .ok (distinctGen k it)

/-- Invocation of a possibly-null callback: calling `null` raises a
`TypeError`. -/
def callCb (cb : Option (α → Nat → β)) (x : α) (i : Nat) : Except JSError β :=
  match cb with
  | none => .error .typeNotFunction
  | some f => .ok (f x i)

/-- Generator body of `map` (index.ts lines 134–142): `yield
selector(item, index++)`.  There is no eager null check on the selector, so
the body may have to invoke a null selector, which fails at the first
element. -/
def mapGo (cb : Option (α → Nat → β)) : List α → Nat → Except JSError (List β)
  | [], _ => .ok []
  | x :: xs, i => do
      let y ← callCb cb x i
      let ys ← mapGo cb xs (i + 1)
      .ok (y :: ys)

/-- The `map` method call: no validation at all, always returns a new lazy
sequence. -/
def map (cb : Option (α → Nat → β)) (it : Iterable α) : Iterable β :=
  ⟨fun n => do
    let l ← it.enumerate n
    mapGo cb l 0⟩

/-- Generator body of `mapMany` (index.ts lines 151–159): `yield*
selector(item, index++)`.  The selector returns an iterable, modelled by
the list it yields. -/
def mapManyGo (cb : Option (α → Nat → List β)) :
    List α → Nat → Except JSError (List β)
  | [], _ => .ok []
  | x :: xs, i => do
      let ys ← callCb cb x i
      let rest ← mapManyGo cb xs (i + 1)
      .ok (ys ++ rest)

/-- The `mapMany` method call: no validation, always returns a new lazy
sequence. -/
def mapMany (cb : Option (α → Nat → List β)) (it : Iterable α) : Iterable β :=
  ⟨fun n => do
    let l ← it.enumerate n
    mapManyGo cb l 0⟩

/-- Loop body of `some` (index.ts lines 167–176): return `true` at the
first accepted item, `false` after exhaustion. -/
def someGo (cb : Option (α → Nat → Bool)) :
    List α → Nat → Except JSError Bool
  | [], _ => .ok false
  | x :: xs, i => do
      let b ← callCb cb x i
      if b then .ok true else someGo cb xs (i + 1)

/-- The `some` method: drains one fresh traversal of the source through the
loop; no eager callback check. -/
def some (cb : Option (α → Nat → Bool)) (it : Iterable α) (n : Nat) :
    Except JSError Bool := do
  let l ← it.enumerate n
  someGo cb l 0

/-- Loop body of `every` (index.ts lines 184–193): return `false` at the
first rejected item, `true` after exhaustion. -/
def everyGo (cb : Option (α → Nat → Bool)) :
    List α → Nat → Except JSError Bool
  | [], _ => .ok true
  | x :: xs, i => do
      let b ← callCb cb x i
      if b then everyGo cb xs (i + 1) else .ok false

/-- The `every` method: drains one fresh traversal of the source through
the loop; no eager callback check. -/
def every (cb : Option (α → Nat → Bool)) (it : Iterable α) (n : Nat) :
    Except JSError Bool := do
  let l ← it.enumerate n
  everyGo cb l 0

/-- The `concat` method (index.ts lines 201–207): a new sequence from the
generator `yield* src; yield* other`, so each traversal request pulls a
fresh traversal of both sources in order. -/
def concat (it other : Iterable α) : Iterable α :=
  ⟨fun n => do
    let a ← it.enumerate n
    let b ← other.enumerate n
    .ok (a ++ b)⟩

/-- `static empty()` (index.ts): a wrapper around an empty array. -/
def empty : Iterable α := ofList []

end Iterable

namespace Iterable

/-- The elements of a list paired with their 0-based indices starting at
`i`: the `(item, index)` pairs a combinator's `index++` counter produces. -/
def enumFrom (i : Nat) : List α → List (α × Nat)
  | [] => []
  | x :: xs => (x, i) :: enumFrom (i + 1) xs

/-- `first(filter)` run from index 0, the way the method starts. -/
def firstWith (p : α → Nat → Bool) (l : List α) : Option α :=
  firstWithGo p l 0

theorem enumFrom_append (i : Nat) (l m : List α) :
    enumFrom i (l ++ m) = enumFrom i l ++ enumFrom (i + l.length) m := by
  induction l generalizing i with
  | nil => simp [enumFrom]
  | cons x xs ih =>
      have h1 : i + 1 + xs.length = i + (xs.length + 1) := by omega
      simp [enumFrom, ih, h1]

theorem firstWithGo_eq_none_iff (p : α → Nat → Bool) (l : List α) (i : Nat) :
    firstWithGo p l i = none ↔ ∀ q ∈ enumFrom i l, p q.1 q.2 = false := by
  induction l generalizing i with
  | nil => simp [firstWithGo, enumFrom]
  | cons x xs ih =>
      by_cases h : p x i <;>
        simp [firstWithGo, enumFrom, h, ih]

theorem firstWithGo_eq_some (p : α → Nat → Bool) (l : List α) (i : Nat)
    (x : α) (hx : firstWithGo p l i = Option.some x) :
    ∃ l1 l2 j, enumFrom i l = l1 ++ (x, j) :: l2 ∧ p x j = true ∧
      ∀ q ∈ l1, p q.1 q.2 = false := by
  induction l generalizing i with
  | nil => simp [firstWithGo] at hx
  | cons y ys ih =>
      by_cases h : p y i
      · have hyx : y = x := by simpa [firstWithGo, h] using hx
        subst hyx
        exact ⟨[], enumFrom (i + 1) ys, i, by simp [enumFrom], h, by simp⟩
      · have hx2 : firstWithGo p ys (i + 1) = Option.some x := by
          simpa [firstWithGo, h] using hx
        rcases ih (i + 1) hx2 with ⟨l1, l2, j, heq, hpj, hpre⟩
        refine ⟨(y, i) :: l1, l2, j, by simp [enumFrom, heq], hpj, ?_⟩
        intro q hq
        rcases List.mem_cons.mp hq with rfl | hq2
        · simpa using h
        · exact hpre q hq2

end Iterable

open Iterable

/-- C3: constructing from `null`, `undefined` or a bare number (neither a
function nor an iterable) fails, with the `Invalid source` error, which is
a `ReferenceError`; every function and every iterable is accepted. -/
theorem construct_invalid_source_spec (α : Type) (s : JSSource α) :
    ((∃ e, construct s = Except.error e) ↔
        (s = JSSource.jsNull ∨ s = JSSource.jsUndefined ∨ ∃ n, s = JSSource.jsNumber n))
    ∧ (∀ e, construct s = Except.error e →
        e = JSError.refInvalidSource ∧ e.isReferenceError = true)
    ∧ (∀ f, ∃ it, construct (JSSource.jsFunc (α := α) f) = Except.ok it)
    ∧ (∀ g, ∃ it, construct (JSSource.jsIterable (α := α) g) = Except.ok it) := by
  refine ⟨?_, ?_, fun f => ⟨_, rfl⟩, fun g => ⟨_, rfl⟩⟩
  · cases s <;> simp [construct]
  · cases s <;> simp [construct, JSError.isReferenceError]

/-- C4: `first()` without a predicate returns the head of a fresh traversal
and the null sentinel exactly on an empty traversal; a falsy head (0,
false, empty string, undefined) is returned as that exact value; with a
predicate it returns the first `(item, index)` match or the null sentinel
when nothing matches, and an empty source yields the sentinel rather than
an error. -/
theorem first_spec :
    (∀ l : List JSValue, firstList l = none ↔ l = [])
    ∧ (∀ (v : JSValue) (l : List JSValue), v.falsy = true → firstList (v :: l) = Option.some v)
    ∧ (∀ (p : JSValue → Nat → Bool) (l : List JSValue),
        firstWith p l = none ↔ ∀ q ∈ enumFrom 0 l, p q.1 q.2 = false)
    ∧ (∀ (p : JSValue → Nat → Bool) (l : List JSValue) (x : JSValue),
        firstWith p l = Option.some x →
          ∃ l1 l2 j, enumFrom 0 l = l1 ++ (x, j) :: l2 ∧ p x j = true ∧
            ∀ q ∈ l1, p q.1 q.2 = false)
    ∧ (∀ p : Option (JSValue → Nat → Bool), (empty : Iterable JSValue).first p 0 = .ok none) := by
  refine ⟨?_, ?_, ?_, ?_, ?_⟩
  · intro l; cases l <;> simp [firstList]
  · intro v l _; rfl
  · intro p l; exact firstWithGo_eq_none_iff p l 0
  · intro p l x h; exact firstWithGo_eq_some p l 0 x h
  · intro p; cases p <;> rfl

namespace Iterable

theorem ok_bind (x : β) (f : β → Except JSError α) :
    (Except.ok x >>= f) = f x := rfl

theorem error_bind (e : JSError) (f : β → Except JSError α) :
    (Except.error e >>= f) = Except.error e := rfl

theorem someGo_some_eq_any (p : α → Nat → Bool) (l : List α) (i : Nat) :
    someGo (Option.some p) l i =
      Except.ok ((enumFrom i l).any (fun q => p q.1 q.2)) := by
  induction l generalizing i with
  | nil => simp [someGo, enumFrom]
  | cons x xs ih =>
      by_cases h : p x i <;>
        simp [someGo, enumFrom, callCb, h, ih, ok_bind]

theorem everyGo_some_eq_all (p : α → Nat → Bool) (l : List α) (i : Nat) :
    everyGo (Option.some p) l i =
      Except.ok ((enumFrom i l).all (fun q => p q.1 q.2)) := by
  induction l generalizing i with
  | nil => simp [everyGo, enumFrom]
  | cons x xs ih =>
      by_cases h : p x i <;>
        simp [everyGo, enumFrom, callCb, h, ih, ok_bind]

theorem someGo_short_circuit (p : α → Nat → Bool) (l1 : List α) (x : α)
    (l2 l3 : List α) (i : Nat) (hx : p x (i + l1.length) = true) :
    someGo (Option.some p) (l1 ++ x :: l2) i = someGo (Option.some p) (l1 ++ x :: l3) i := by
  induction l1 generalizing i with
  | nil =>
      simp only [List.nil_append, List.length_nil, Nat.add_zero] at hx ⊢
      simp [someGo, callCb, hx, ok_bind]
  | cons y ys ih =>
      have hx2 : p x (i + 1 + ys.length) = true := by
        have : i + 1 + ys.length = i + (y :: ys).length := by simp; omega
        rw [this]; exact hx
      by_cases h : p y i <;>
        simp [someGo, callCb, h, ih (i + 1) hx2, ok_bind]

theorem everyGo_short_circuit (p : α → Nat → Bool) (l1 : List α) (x : α)
    (l2 l3 : List α) (i : Nat) (hx : p x (i + l1.length) = false) :
    everyGo (Option.some p) (l1 ++ x :: l2) i = everyGo (Option.some p) (l1 ++ x :: l3) i := by
  induction l1 generalizing i with
  | nil =>
      simp only [List.nil_append, List.length_nil, Nat.add_zero] at hx ⊢
      simp [everyGo, callCb, hx, ok_bind]
  | cons y ys ih =>
      have hx2 : p x (i + 1 + ys.length) = false := by
        have : i + 1 + ys.length = i + (y :: ys).length := by simp; omega
        rw [this]; exact hx
      by_cases h : p y i <;>
        simp [everyGo, callCb, h, ih (i + 1) hx2, ok_bind]

theorem mapManyGo_some_eq_flatten (s : α → Nat → List β) (l : List α) (i : Nat) :
    mapManyGo (Option.some s) l i =
      Except.ok (((enumFrom i l).map (fun q => s q.1 q.2)).flatten) := by
  induction l generalizing i with
  | nil => simp [mapManyGo, enumFrom]
  | cons x xs ih =>
      simp [mapManyGo, enumFrom, callCb, ih, ok_bind]

theorem mapGo_some_eq_map (g : α → Nat → β) (l : List α) (i : Nat) :
    mapGo (Option.some g) l i =
      Except.ok ((enumFrom i l).map (fun q => g q.1 q.2)) := by
  induction l generalizing i with
  | nil => simp [mapGo, enumFrom]
  | cons x xs ih =>
      simp [mapGo, enumFrom, callCb, ih, ok_bind]

theorem enumFrom_map_fst (i : Nat) (l : List α) :
    (enumFrom i l).map Prod.fst = l := by
  induction l generalizing i with
  | nil => rfl
  | cons x xs ih => simp [enumFrom, ih]

end Iterable

/-- C8: `concat` yields all elements of the receiver in order followed by
all elements of the other iterable in order, and concatenation with the
empty sequence (on either side) leaves the items unchanged. -/
theorem concat_spec (α : Type) :
    (∀ (l m : List α) (n : Nat),
        (concat (ofList l) (ofList m)).enumerate n = Except.ok (l ++ m))
    ∧ (∀ (it other : Iterable α) (n : Nat) (a b : List α),
        it.enumerate n = Except.ok a → other.enumerate n = Except.ok b →
          items (concat it other) n = Except.ok (a ++ b))
    ∧ (∀ (it : Iterable α) (n : Nat), items (concat it empty) n = items it n)
    ∧ (∀ (it : Iterable α) (n : Nat) (a : List α), it.enumerate n = Except.ok a →
        items (concat empty it) n = items it n) := by
  refine ⟨fun l m n => rfl, ?_, ?_, ?_⟩
  · intro it other n a b ha hb
    simp [items, concat, ha, hb, ok_bind]
  · intro it n
    cases h : it.enumerate n <;> simp [items, concat, empty, ofList, h, ok_bind, error_bind]
  · intro it n a ha
    simp [items, concat, empty, ofList, ha, ok_bind]

/-- C7: `some` is true exactly when the predicate accepts some
`(item, index)` pair, false on exhaustion and on an empty source, and does
not look past the first match; `every` is true exactly when the predicate
accepts all pairs, false at the first failure without looking further, and
vacuously true on an empty source. -/
theorem some_every_spec (α : Type) :
    (∀ (p : α → Nat → Bool) (l : List α),
        Iterable.some (Option.some p) (ofList l) 0 =
          Except.ok ((enumFrom 0 l).any (fun q => p q.1 q.2)))
    ∧ (∀ (p : α → Nat → Bool) (l : List α),
        Iterable.some (Option.some p) (ofList l) 0 = Except.ok true ↔
          ∃ q ∈ enumFrom 0 l, p q.1 q.2 = true)
    ∧ (∀ (p : α → Nat → Bool) (l1 : List α) (x : α) (l2 l3 : List α),
        p x l1.length = true →
          Iterable.some (Option.some p) (ofList (l1 ++ x :: l2)) 0 =
            Iterable.some (Option.some p) (ofList (l1 ++ x :: l3)) 0)
    ∧ (∀ p : α → Nat → Bool, Iterable.some (Option.some p) (ofList []) 0 = Except.ok false)
    ∧ (∀ (p : α → Nat → Bool) (l : List α),
        every (Option.some p) (ofList l) 0 =
          Except.ok ((enumFrom 0 l).all (fun q => p q.1 q.2)))
    ∧ (∀ (p : α → Nat → Bool) (l : List α),
        every (Option.some p) (ofList l) 0 = Except.ok true ↔
          ∀ q ∈ enumFrom 0 l, p q.1 q.2 = true)
    ∧ (∀ (p : α → Nat → Bool) (l1 : List α) (x : α) (l2 l3 : List α),
        p x l1.length = false →
          every (Option.some p) (ofList (l1 ++ x :: l2)) 0 =
            every (Option.some p) (ofList (l1 ++ x :: l3)) 0)
    ∧ (∀ p : α → Nat → Bool, every (Option.some p) (ofList []) 0 = Except.ok true) := by
  have hs : ∀ (p : α → Nat → Bool) (l : List α),
      Iterable.some (Option.some p) (ofList l) 0 =
        Except.ok ((enumFrom 0 l).any (fun q => p q.1 q.2)) := by
    intro p l
    simp [Iterable.some, ofList, someGo_some_eq_any, ok_bind]
  have he : ∀ (p : α → Nat → Bool) (l : List α),
      every (Option.some p) (ofList l) 0 =
        Except.ok ((enumFrom 0 l).all (fun q => p q.1 q.2)) := by
    intro p l
    simp [every, ofList, everyGo_some_eq_all, ok_bind]
  refine ⟨hs, ?_, ?_, fun p => rfl, he, ?_, ?_, fun p => rfl⟩
  · intro p l
    rw [hs]
    simp [List.any_eq_true]
  · intro p l1 x l2 l3 hx
    have := someGo_short_circuit p l1 x l2 l3 0 (by simpa using hx)
    simp [Iterable.some, ofList, this, ok_bind]
  · intro p l
    rw [he]
    simp [List.all_eq_true]
  · intro p l1 x l2 l3 hx
    have := everyGo_short_circuit p l1 x l2 l3 0 (by simpa using hx)
    simp [every, ofList, this, ok_bind]

/-- C6: `mapMany` yields the in-order concatenation of the sub-sequences
the selector returns: the result of one traversal is exactly the flattening
of the selector images in source order, an element appears in the result
precisely when some `(item, index)` pair's sub-sequence contains it, and an
empty sub-sequence contributes zero elements. -/
theorem mapMany_spec (α β : Type) :
    (∀ (s : α → Nat → List β) (l : List α),
        (mapMany (Option.some s) (ofList l)).enumerate 0 =
          Except.ok (((enumFrom 0 l).map (fun q => s q.1 q.2)).flatten))
    ∧ (∀ (s : α → Nat → List β) (l : List α) (y : β),
        (y ∈ ((enumFrom 0 l).map (fun q => s q.1 q.2)).flatten ↔
          ∃ q ∈ enumFrom 0 l, y ∈ s q.1 q.2))
    ∧ (∀ (s : α → Nat → List β) (l1 : List α) (x : α) (l2 : List α) (i : Nat),
        s x i = [] →
          ((enumFrom 0 l1 ++ (x, i) :: enumFrom (i + 1) l2).map
              (fun q => s q.1 q.2)).flatten =
            ((enumFrom 0 l1).map (fun q => s q.1 q.2)).flatten ++
              ((enumFrom (i + 1) l2).map (fun q => s q.1 q.2)).flatten) := by
  refine ⟨?_, ?_, ?_⟩
  · intro s l
    simp [mapMany, ofList, mapManyGo_some_eq_flatten, ok_bind]
  · intro s l y
    simp only [List.mem_flatten, List.mem_map]
    constructor
    · rintro ⟨sub, ⟨q, hq, rfl⟩, hy⟩
      exact ⟨q, hq, hy⟩
    · rintro ⟨q, hq, hy⟩
      exact ⟨s q.1 q.2, ⟨q, hq, rfl⟩, hy⟩
  · intro s l1 x l2 i hs
    simp [hs]

/-- C9: `map`, `mapMany`, `some` and `every` perform no eager callback
check: `map`/`mapMany` with a null selector return a sequence whose
traversal fails only over a non-empty source, and `some`/`every` with a
null predicate on an empty source return `false`/`true` without error,
whereas `filter` and `distinct` reject a null callback at the call. -/
theorem no_eager_check_spec (α β : Type) :
    (∀ (it : Iterable α) (n : Nat), it.enumerate n = Except.ok [] →
        (map (none : Option (α → Nat → β)) it).enumerate n = Except.ok [])
    ∧ (∀ (it : Iterable α) (n : Nat) (x : α) (xs : List α),
        it.enumerate n = Except.ok (x :: xs) →
          (map (none : Option (α → Nat → β)) it).enumerate n =
            Except.error JSError.typeNotFunction)
    ∧ (∀ (it : Iterable α) (n : Nat), it.enumerate n = Except.ok [] →
        (mapMany (none : Option (α → Nat → List β)) it).enumerate n = Except.ok [])
    ∧ (∀ (it : Iterable α) (n : Nat) (x : α) (xs : List α),
        it.enumerate n = Except.ok (x :: xs) →
          (mapMany (none : Option (α → Nat → List β)) it).enumerate n =
            Except.error JSError.typeNotFunction)
    ∧ (Iterable.some (none : Option (α → Nat → Bool)) (ofList []) 0 = Except.ok false)
    ∧ (every (none : Option (α → Nat → Bool)) (ofList []) 0 = Except.ok true)
    ∧ (∀ it : Iterable α, filter none it = Except.error JSError.refInvalidFilter)
    ∧ (∀ it : Iterable α,
        distinct (none : Option (α → Nat → Nat)) it = Except.error JSError.refInvalidKeySelector) := by
  refine ⟨?_, ?_, ?_, ?_, rfl, rfl, fun it => rfl, fun it => rfl⟩
  · intro it n hl
    simp [map, hl, mapGo, ok_bind]
  · intro it n x xs hl
    simp [map, hl, mapGo, callCb, ok_bind, error_bind]
  · intro it n hl
    simp [mapMany, hl, mapManyGo, ok_bind]
  · intro it n x xs hl
    simp [mapMany, hl, mapManyGo, callCb, ok_bind, error_bind]

/-- C10: a function source is accepted by the constructor without being
invoked or validated — construction succeeds for every function, including
one returning a non-iterable on every call — and each traversal request
`n` consults the function's `n`-th invocation, so an invalid return value
surfaces only as a traversal-time error. -/
theorem construct_function_spec (α : Type) :
    (∀ f : Nat → Option (List α), ∃ it,
        construct (JSSource.jsFunc f) = Except.ok it ∧
          ∀ n, it.enumerate n =
            (match f n with
              | Option.some l => Except.ok l
              | none => Except.error JSError.typeNotIterable))
    ∧ (∃ it, construct (JSSource.jsFunc (fun _ => (none : Option (List α)))) = Except.ok it ∧
        it.enumerate 0 = Except.error JSError.typeNotIterable) := by
  exact ⟨fun f => ⟨_, rfl, fun n => rfl⟩, ⟨_, rfl, rfl⟩⟩

/-- C5 counterexample: `map`, `some` and `every` also take a required
callback, yet invoking them with a null callback raises nothing at the
call — over the empty source they even traverse successfully — refuting
the claim that the eager null check extends to the other callback-taking
operations. -/
theorem map_null_callback_no_eager_error :
    (map (none : Option (Int → Nat → Int)) (ofList ([] : List Int))).enumerate 0 = Except.ok []
    ∧ (mapMany (none : Option (Int → Nat → List Int)) (ofList ([] : List Int))).enumerate 0 =
        Except.ok []
    ∧ Iterable.some (none : Option (Int → Nat → Bool)) (ofList ([] : List Int)) 0 =
        Except.ok false
    ∧ every (none : Option (Int → Nat → Bool)) (ofList ([] : List Int)) 0 = Except.ok true :=
  ⟨rfl, rfl, rfl, rfl⟩

/-- C5 (amended): `filter` and `distinct` with a null/undefined callback
raise their `ReferenceError` eagerly at the combinator call, for every
source and independently of it (so before any traversal); but the eager
check does not extend to the other operations taking a required callback —
`map`, `mapMany`, `some` and `every` perform no such check. -/
theorem eager_callback_check_spec (α β κ : Type) [DecidableEq κ] :
    (∀ it : Iterable α, filter none it = Except.error JSError.refInvalidFilter)
    ∧ (∀ it : Iterable α,
        distinct (none : Option (α → Nat → κ)) it = Except.error JSError.refInvalidKeySelector)
    ∧ JSError.refInvalidFilter.isReferenceError = true
    ∧ JSError.refInvalidKeySelector.isReferenceError = true
    ∧ (∀ (f : α → Nat → Bool) (it : Iterable α),
        filter (Option.some f) it = Except.ok (filterGen f it))
    ∧ (∀ (k : α → Nat → κ) (it : Iterable α),
        distinct (Option.some k) it = Except.ok (distinctGen k it))
    ∧ ((map (none : Option (α → Nat → β)) (ofList [])).enumerate 0 = Except.ok [])
    ∧ ((mapMany (none : Option (α → Nat → List β)) (ofList [])).enumerate 0 = Except.ok [])
    ∧ (Iterable.some (none : Option (α → Nat → Bool)) (ofList []) 0 = Except.ok false)
    ∧ (every (none : Option (α → Nat → Bool)) (ofList []) 0 = Except.ok true) :=
  ⟨fun _ => rfl, fun _ => rfl, rfl, rfl, fun _ _ => rfl, fun _ _ => rfl, rfl, rfl, rfl, rfl⟩

/-- C1: with a repeatable source, the sequences `filter`, `map` and
`distinct` derive are themselves repeatable — `count()`, `items()` and
`first()` give identical results on every traversal — and a function
source is accepted without invocation, each traversal request consulting a
fresh invocation. -/
theorem retraversable_spec (α β κ : Type) [DecidableEq κ] (it : Iterable α)
    (f : α → Nat → Bool) (g : α → Nat → β) (k : α → Nat → κ)
    (h : Repeatable it) :
    Repeatable (filterGen f it)
    ∧ Repeatable (map (Option.some g) it)
    ∧ Repeatable (distinctGen k it)
    ∧ (∀ m n, count (filterGen f it) m = count (filterGen f it) n)
    ∧ (∀ m n, items (filterGen f it) m = items (filterGen f it) n)
    ∧ (∀ (p : Option (α → Nat → Bool)) (m n : Nat),
        first (filterGen f it) p m = first (filterGen f it) p n)
    ∧ (∀ m n, count (map (Option.some g) it) m = count (map (Option.some g) it) n)
    ∧ (∀ m n, items (map (Option.some g) it) m = items (map (Option.some g) it) n)
    ∧ (∀ m n, count (distinctGen k it) m = count (distinctGen k it) n)
    ∧ (∀ m n, items (distinctGen k it) m = items (distinctGen k it) n)
    ∧ (∀ fn : Nat → Option (List α), ∃ jt,
        construct (JSSource.jsFunc fn) = Except.ok jt ∧
          ∀ n, jt.enumerate n =
            (match fn n with
              | Option.some l => Except.ok l
              | none => Except.error JSError.typeNotIterable)) := by
  have hf : Repeatable (filterGen f it) := by
    intro m n; simp only [filterGen]; rw [h m n]
  have hm : Repeatable (map (Option.some g) it) := by
    intro m n; simp only [map]; rw [h m n]
  have hd : Repeatable (distinctGen k it) := by
    intro m n; simp only [distinctGen]; rw [h m n]
  refine ⟨hf, hm, hd, ?_, ?_, ?_, ?_, ?_, ?_, ?_, fun fn => ⟨_, rfl, fun n => rfl⟩⟩
  · intro m n; simp only [count]; rw [hf m n]
  · intro m n; simp only [items]; rw [hf m n]
  · intro p m n; cases p <;> simp only [first] <;> rw [hf m n]
  · intro m n; simp only [count]; rw [hm m n]
  · intro m n; simp only [items]; rw [hm m n]
  · intro m n; simp only [count]; rw [hd m n]
  · intro m n; simp only [items]; rw [hd m n]

/-- C1 witness: a concrete repeatable source traversed twice through each
derived sequence. -/
theorem retraversable_witness :
    count (filterGen (fun x _ => decide (0 < x)) (ofList ([1, -2, 3] : List Int))) 0 =
      count (filterGen (fun x _ => decide (0 < x)) (ofList ([1, -2, 3] : List Int))) 1
    ∧ items (distinctGen (fun (x : Int) _ => x) (ofList ([1, 1, 2] : List Int))) 0 =
        items (distinctGen (fun (x : Int) _ => x) (ofList ([1, 1, 2] : List Int))) 1 :=
  ⟨(retraversable_spec Int Int Int (ofList [1, -2, 3]) (fun x _ => decide (0 < x))
      (fun x _ => x) (fun x _ => x) (fun _ _ => rfl)).2.2.2.1 0 1,
   (retraversable_spec Int Int Int (ofList [1, 1, 2]) (fun x _ => decide (0 < x))
      (fun x _ => x) (fun x _ => x) (fun _ _ => rfl)).2.2.2.2.2.2.2.2.2.1 0 1⟩

namespace Iterable

/-- The key of each `(item, index)` pair of a traversal, in order: what
`keySelector(item, index++)` computes along the `distinct` loop. -/
def pairKeys (k : α → Nat → κ) (ps : List (α × Nat)) : List κ :=
  ps.map (fun q => k q.1 q.2)

/-- `distinct`'s generator loop formulated over `(item, index)` pairs, so
that positional facts about the yielded items can be stated. -/
def distinctPairs [DecidableEq κ] (k : α → Nat → κ) :
    List (α × Nat) → List κ → List (α × Nat)
  | [], _ => []
  | q :: qs, seen =>
      if k q.1 q.2 ∈ seen then distinctPairs k qs seen
      else q :: distinctPairs k qs (k q.1 q.2 :: seen)

theorem distinctGo_eq_pairs [DecidableEq κ] (k : α → Nat → κ) (l : List α)
    (i : Nat) (seen : List κ) :
    distinctGo k l i seen = (distinctPairs k (enumFrom i l) seen).map Prod.fst := by
  induction l generalizing i seen with
  | nil => simp [distinctGo, enumFrom, distinctPairs]
  | cons x xs ih =>
      by_cases h : k x i ∈ seen <;>
        simp [distinctGo, enumFrom, distinctPairs, h, ih]

theorem distinctPairs_sublist [DecidableEq κ] (k : α → Nat → κ)
    (ps : List (α × Nat)) (seen : List κ) :
    (distinctPairs k ps seen).Sublist ps := by
  induction ps generalizing seen with
  | nil => simp [distinctPairs]
  | cons q qs ih =>
      by_cases h : k q.1 q.2 ∈ seen
      · simp only [distinctPairs, if_pos h]
        exact List.Sublist.cons q (ih seen)
      · simp only [distinctPairs, if_neg h]
        exact List.Sublist.cons₂ q (ih _)

theorem distinctList_sublist [DecidableEq κ] (k : α → Nat → κ) (l : List α) :
    (distinctList k l).Sublist l := by
  rw [distinctList, distinctGo_eq_pairs]
  have h := List.Sublist.map Prod.fst (distinctPairs_sublist k (enumFrom 0 l) [])
  rwa [enumFrom_map_fst] at h

theorem distinctPairs_length [DecidableEq κ] (k : α → Nat → κ)
    (ps : List (α × Nat)) (seen : List κ) :
    (distinctPairs k ps seen).length =
      ((pairKeys k ps).toFinset \ seen.toFinset).card := by
  induction ps generalizing seen with
  | nil => simp [distinctPairs, pairKeys]
  | cons q qs ih =>
      by_cases h : k q.1 q.2 ∈ seen
      · have hset : (pairKeys k (q :: qs)).toFinset \ seen.toFinset =
            (pairKeys k qs).toFinset \ seen.toFinset := by
          ext b
          simp only [pairKeys, List.map_cons, List.toFinset_cons, Finset.mem_sdiff,
            Finset.mem_insert, List.mem_toFinset]
          constructor
          · rintro ⟨rfl | hb, hnb⟩
            · exact absurd h hnb
            · exact ⟨hb, hnb⟩
          · rintro ⟨hb, hnb⟩
            exact ⟨Or.inr hb, hnb⟩
        simp only [distinctPairs, if_pos h, hset]
        exact ih seen
      · have hy : (pairKeys k qs).toFinset \ (k q.1 q.2 :: seen).toFinset =
            ((pairKeys k qs).toFinset \ seen.toFinset).erase (k q.1 q.2) := by
          ext b
          simp only [List.toFinset_cons, Finset.mem_sdiff, Finset.mem_insert,
            Finset.mem_erase, List.mem_toFinset]
          tauto
        have hz : (pairKeys k (q :: qs)).toFinset \ seen.toFinset =
            insert (k q.1 q.2)
              (((pairKeys k qs).toFinset \ seen.toFinset).erase (k q.1 q.2)) := by
          ext b
          simp only [pairKeys, List.map_cons, List.toFinset_cons, Finset.mem_sdiff,
            Finset.mem_insert, Finset.mem_erase, List.mem_toFinset]
          by_cases hb : b = k q.1 q.2
          · subst hb; simp [h]
          · simp [hb]
        simp only [distinctPairs, if_neg h, List.length_cons, ih, hy, hz]
        rw [Finset.card_insert_of_not_mem (Finset.not_mem_erase _ _)]

theorem pairKeys_cons (k : α → Nat → κ) (q : α × Nat) (qs : List (α × Nat)) :
    pairKeys k (q :: qs) = k q.1 q.2 :: pairKeys k qs := rfl

theorem distinctPairs_count [DecidableEq κ] (k : α → Nat → κ)
    (ps : List (α × Nat)) (seen : List κ) (b : κ) :
    (pairKeys k (distinctPairs k ps seen)).count b =
      if b ∉ seen ∧ b ∈ pairKeys k ps then 1 else 0 := by
  induction ps generalizing seen with
  | nil => simp [distinctPairs, pairKeys]
  | cons q qs ih =>
      by_cases h : k q.1 q.2 ∈ seen
      · rw [show distinctPairs k (q :: qs) seen = distinctPairs k qs seen from by
            simp [distinctPairs, h]]
        rw [ih seen, pairKeys_cons]
        by_cases hb : b ∈ seen
        · simp [hb]
        · have hbc : b ≠ k q.1 q.2 := fun e => hb (e ▸ h)
          simp [hb, List.mem_cons, hbc]
      · rw [show distinctPairs k (q :: qs) seen =
              q :: distinctPairs k qs (k q.1 q.2 :: seen) from by
            simp [distinctPairs, h]]
        rw [pairKeys_cons, List.count_cons, ih (k q.1 q.2 :: seen), pairKeys_cons]
        by_cases hbc : b = k q.1 q.2
        · subst hbc
          simp [h]
        · simp [hbc, List.mem_cons]
          exact fun e => hbc e.symm

theorem distinctPairs_first_occ [DecidableEq κ] (k : α → Nat → κ)
    (ps : List (α × Nat)) (seen : List κ) (x : α) (i : Nat)
    (hmem : (x, i) ∈ distinctPairs k ps seen) :
    k x i ∉ seen ∧ ∃ l1 l2, ps = l1 ++ (x, i) :: l2 ∧
      ∀ q ∈ l1, k q.1 q.2 ≠ k x i := by
  induction ps generalizing seen with
  | nil => simp [distinctPairs] at hmem
  | cons q qs ih =>
      by_cases h : k q.1 q.2 ∈ seen
      · rw [show distinctPairs k (q :: qs) seen = distinctPairs k qs seen from by
            simp [distinctPairs, h]] at hmem
        obtain ⟨hns, l1, l2, heq, hpre⟩ := ih seen hmem
        refine ⟨hns, q :: l1, l2, by rw [heq]; rfl, ?_⟩
        intro r hr
        rcases List.mem_cons.mp hr with rfl | hr2
        · exact fun hc => hns (hc ▸ h)
        · exact hpre r hr2
      · rw [show distinctPairs k (q :: qs) seen =
              q :: distinctPairs k qs (k q.1 q.2 :: seen) from by
            simp [distinctPairs, h]] at hmem
        rcases List.mem_cons.mp hmem with heq | hmem2
        · subst heq
          exact ⟨h, [], qs, rfl, by simp⟩
        · obtain ⟨hns, l1, l2, heq, hpre⟩ := ih (k q.1 q.2 :: seen) hmem2
          have hxns : k x i ∉ seen := fun hc => hns (List.mem_cons_of_mem _ hc)
          have hxc : k x i ≠ k q.1 q.2 := fun hc => hns (by rw [hc]; exact List.mem_cons_self _ _)
          refine ⟨hxns, q :: l1, l2, by rw [heq]; rfl, ?_⟩
          intro r hr
          rcases List.mem_cons.mp hr with rfl | hr2
          · exact fun hc => hxc hc.symm
          · exact hpre r hr2

end Iterable

/-- C2: one traversal of `distinct(keySelector)` yields exactly the first
occurrence of each distinct key in original order — the output is a
subsequence of the input, its length is the number of distinct keys, each
key occurring in the input appears exactly once among the output's keys,
every yielded `(item, index)` pair sits at the first position carrying its
key — and because the seen-keys set is freshly allocated per traversal,
repeated traversals over a repeatable source give the same result. -/
theorem distinct_spec (α κ : Type) [DecidableEq κ] (k : α → Nat → κ) (l : List α) :
    (distinctList k l).Sublist l
    ∧ distinctList k l = (distinctPairs k (enumFrom 0 l) []).map Prod.fst
    ∧ (distinctList k l).length = (pairKeys k (enumFrom 0 l)).toFinset.card
    ∧ (∀ b : κ, (pairKeys k (distinctPairs k (enumFrom 0 l) [])).count b =
        if b ∈ pairKeys k (enumFrom 0 l) then 1 else 0)
    ∧ (∀ (x : α) (i : Nat), (x, i) ∈ distinctPairs k (enumFrom 0 l) [] →
        ∃ l1 l2, enumFrom 0 l = l1 ++ (x, i) :: l2 ∧ ∀ q ∈ l1, k q.1 q.2 ≠ k x i)
    ∧ (∀ it : Iterable α, Repeatable it → ∀ m n,
        items (distinctGen k it) m = items (distinctGen k it) n
          ∧ count (distinctGen k it) m = count (distinctGen k it) n) := by
  refine ⟨distinctList_sublist k l, distinctGo_eq_pairs k l 0 [], ?_, ?_, ?_, ?_⟩
  · rw [distinctList, distinctGo_eq_pairs, List.length_map, distinctPairs_length]
    simp
  · intro b
    rw [distinctPairs_count]
    simp
  · intro x i hm
    exact (distinctPairs_first_occ k (enumFrom 0 l) [] x i hm).2
  · intro it h m n
    have hd : (distinctGen k it).enumerate m = (distinctGen k it).enumerate n := by
      simp only [distinctGen]; rw [h m n]
    exact ⟨hd, by simp only [count]; rw [hd]⟩
